import Mathlib

/-!
Shallow embedding of the partial-tree reconstruction model of the
`grovedbg` repository (`src/model.rs`): the `Tree` / `Subtree` / `Node`
aggregate and its insert / remove / unload algorithms.

`Key` (Rust `Vec<u8>`) is modelled as `List Nat`, `Path` as `List Key`.
Rust's `BTreeMap` is modelled as `Finmap`, `BTreeSet` / `HashSet` as
`Finset` (their `==` is key-set / set equality, which is exactly `Finmap` /
`Finset` equality).  UI-only state (`RefCell<SubtreeUiState>` and
`RefCell<NodeUiState>`) carries no model information and is omitted.
-/

namespace Grovedbg

abbrev Key : Type := List Nat

abbrev Path : Type := List Key

/-- `Element` from `src/model.rs`: the value a subtree's node holds. -/
inductive Element : Type where
  | Item (value : List Nat)
  | SumItem (value : Int)
  | Reference (path : Path) (key : Key)
  | Sumtree (root_key : Option Key) (sum : Int)
  | Subtree (root_key : Option Key)
  | SubtreePlaceholder
deriving DecidableEq, Repr

/-- `Node` from `src/model.rs`: an element plus optional left/right child keys. -/
structure Node : Type where
  element : Element
  left_child : Option Key
  right_child : Option Key
deriving DecidableEq, Repr

/-- `Node::new_item` -/
def Node.new_item (value : List Nat) : Node :=
  ⟨Element.Item value, none, none⟩

/-- `Node::new_subtree` -/
def Node.new_subtree (root_key : Option Key) : Node :=
  ⟨Element.Subtree root_key, none, none⟩

/-- `Node::new_sumtree` -/
def Node.new_sumtree (root_key : Option Key) (sum : Int) : Node :=
  ⟨Element.Sumtree root_key sum, none, none⟩

/-- `Node::new_subtree_pacehodler` (sic) -/
def Node.new_subtree_pacehodler : Node :=
  ⟨Element.SubtreePlaceholder, none, none⟩

/-- `Node::with_left_child` -/
def Node.with_left_child (n : Node) (key : Key) : Node :=
  { n with left_child := some key }

/-- `Node::with_right_child` -/
def Node.with_right_child (n : Node) (key : Key) : Node :=
  { n with right_child := some key }

/-- `Subtree` from `src/model.rs` (UI state omitted). -/
structure Subtree : Type where
  root_node : Option Key
  cluster_roots : Finset Key
  nodes : Finmap fun _ : Key => Node
  waitlist : Finset Key

instance : DecidableEq Subtree := fun a b =>
  decidable_of_iff
    (a.root_node = b.root_node ∧ a.cluster_roots = b.cluster_roots ∧
      a.nodes = b.nodes ∧ a.waitlist = b.waitlist)
    (by cases a; cases b; simp)

/-- `Subtree::default` / `Subtree::new` -/
def Subtree.new : Subtree :=
  ⟨none, ∅, ∅, ∅⟩

/-- `Subtree::new_root` -/
def Subtree.new_root (root_node : Key) : Subtree :=
  ⟨some root_node, ∅, ∅, ∅⟩

/-- `Subtree::set_root`: designate a root key, removing it from the cluster roots. -/
def Subtree.set_root (s : Subtree) (root_node : Key) : Subtree :=
  ⟨some root_node, s.cluster_roots.erase root_node, s.nodes, s.waitlist⟩

/-- Helper for the per-child waitlist erasures in `Subtree::remove`
(`node.left_child.iter().for_each(|child| waitlist.remove(child))`). -/
def optErase (wl : Finset Key) (child : Option Key) : Finset Key :=
  match child with
  | none => wl
  | some c => wl.erase c

/-- Helper for the per-child cluster-root insertions in `Subtree::remove`
(`if nodes.contains_key(&child) { cluster_roots.insert(child) }`). -/
def optClusterAdd (nodes : Finmap fun _ : Key => Node) (cr : Finset Key)
    (child : Option Key) : Finset Key :=
  match child with
  | none => cr
  | some c => if c ∈ nodes then insert c cr else cr

/-- `Subtree::remove` from `src/model.rs` lines 436-471, translated statement
by statement. -/
def Subtree.remove (s : Subtree) (key : Key) : Subtree :=
  match s.nodes.lookup key with
  | none => s
  | some node =>
    let nodes1 := s.nodes.erase key
    let wl1 := optErase (optErase s.waitlist node.left_child) node.right_child
    let cr1 := optClusterAdd nodes1 (optClusterAdd nodes1 s.cluster_roots node.left_child)
      node.right_child
    let wl2 := if s.root_node ≠ some key ∧ key ∉ cr1 then insert key wl1 else wl1
    ⟨s.root_node, cr1, nodes1, wl2⟩

/-- Set insertion, spelled out so it stays unambiguous inside `Subtree.insert`. -/
def finsetAdd (k : Key) (s : Finset Key) : Finset Key :=
  insert k s

/-- Helper for `child_updates` in `Subtree::insert`: the waitlist part
(`if !nodes.contains_key(child_key) { waitlist.insert(child_key) }`). -/
def childWaitlist (nodes : Finmap fun _ : Key => Node) (wl : Finset Key)
    (child : Option Key) : Finset Key :=
  match child with
  | none => wl
  | some c => if c ∈ nodes then wl else insert c wl

/-- `Subtree::insert` from `src/model.rs` lines 475-521: remove-then-add,
then parent-status bookkeeping, then `child_updates` for both children,
then the map insertion. -/
def Subtree.insert (s : Subtree) (key : Key) (node : Node) : Subtree :=
  let s1 := s.remove key
  let present := key ∈ s1.waitlist
  let wl1 := s1.waitlist.erase key
  let cr1 := if ¬present ∧ s1.root_node ≠ some key
    then finsetAdd key s1.cluster_roots else s1.cluster_roots
  let wl2 := childWaitlist s1.nodes wl1 node.left_child
  let cr2 := optErase cr1 node.left_child
  let wl3 := childWaitlist s1.nodes wl2 node.right_child
  let cr3 := optErase cr2 node.right_child
  ⟨s1.root_node, cr3, s1.nodes.insert key node, wl3⟩

/-- `Subtree::insert_not_exists` -/
def Subtree.insert_not_exists (s : Subtree) (key : Key) (node : Node) : Subtree :=
  if key ∈ s.nodes then s else s.insert key node

/-- `Tree` from `src/model.rs`: a path-indexed collection of subtrees. -/
structure Tree : Type where
  subtrees : Finmap fun _ : Path => Subtree

instance : DecidableEq Tree := fun a b =>
  decidable_of_iff (a.subtrees = b.subtrees) (by cases a; cases b; simp)

/-- `Tree::new` -/
def Tree.new : Tree :=
  ⟨∅⟩

/-- `Tree::set_root` (the `set_visible` call only touches omitted UI state). -/
def Tree.set_root (t : Tree) (root_key : Key) : Tree :=
  ⟨t.subtrees.insert [] (((t.subtrees.lookup []).getD Subtree.new).set_root root_key)⟩

/-- `Tree::get_node` -/
def Tree.get_node (t : Tree) (path : Path) (key : Key) : Option Node :=
  (t.subtrees.lookup path).bind fun subtree => subtree.nodes.lookup key

/-- `Tree::remove` -/
def Tree.remove (t : Tree) (path : Path) (key : Key) : Tree :=
  match t.subtrees.lookup path with
  | none => t
  | some subtree => ⟨t.subtrees.insert path (subtree.remove key)⟩

/-- `Tree::clear_subtree`: empty the node map of the subtree at `path`,
keeping the entry itself. -/
def Tree.clear_subtree (t : Tree) (path : Path) : Tree :=
  match t.subtrees.lookup path with
  | none => t
  | some subtree => ⟨t.subtrees.insert path { subtree with nodes := ∅ }⟩

/-- One iteration of the `(0..=path.len()).for_each` loop in
`Tree::populate_subtrees_chain`: materialize the subtree entry for the
prefix of length `depth` and, if `depth < path.len()`, make sure it has a
node under the next segment's key. -/
def Tree.populateStep (path : Path) (t : Tree) (depth : Nat) : Tree :=
  let pre := path.take depth
  let st := (t.subtrees.lookup pre).getD Subtree.new
  let st1 := if h : depth < path.length
    then st.insert_not_exists path[depth] Node.new_subtree_pacehodler
    else st
  ⟨t.subtrees.insert pre st1⟩

/-- `Tree::populate_subtrees_chain` from `src/model.rs` lines 243-253. -/
def Tree.populate_subtrees_chain (t : Tree) (path : Path) : Tree :=
  (List.range (path.length + 1)).foldl (Tree.populateStep path) t

/-- Step 2 of `Tree::insert`: if the inserted node represents another
subtree, materialize the child subtree entry and update its root info. -/
def Tree.childStep (t1 : Tree) (path : Path) (key : Key) (node : Node) : Tree :=
  match node.element with
  | Element.Sumtree root_key _ | Element.Subtree root_key =>
    let child_path := path ++ [key]
    let child := (t1.subtrees.lookup child_path).getD Subtree.new
    let child1 := match root_key with
      | some rk => child.set_root rk
      | none => child
    Tree.mk (t1.subtrees.insert child_path child1)
  | _ => t1

/-- `Tree::insert` from `src/model.rs` lines 203-223.  The
`expect("model was updated")` panic branch is modelled by the `none`
result. -/
def Tree.insert (t : Tree) (path : Path) (key : Key) (node : Node) : Option Tree :=
  let t2 := (t.populate_subtrees_chain path).childStep path key node
  match t2.subtrees.lookup path with
  | none => none
  | some subtree => some ⟨t2.subtrees.insert path (subtree.insert key node)⟩

/-- The keys a node lists as its children (left first). -/
def Node.childKeys (n : Node) : List Key :=
  n.left_child.toList ++ n.right_child.toList

/-- The `sample_tree` fixture of the repository's unit tests: keys are the
byte strings "root", "left1", "right1", "left2", "right2", "right3",
"left4", "right4". -/
def rootK : Key := [114, 111, 111, 116]

def left1 : Key := [108, 101, 102, 116, 49]

def right1 : Key := [114, 105, 103, 104, 116, 49]

def left2 : Key := [108, 101, 102, 116, 50]

def right2 : Key := [114, 105, 103, 104, 116, 50]

def right3 : Key := [114, 105, 103, 104, 116, 51]

def left4 : Key := [108, 101, 102, 116, 52]

def right4 : Key := [114, 105, 103, 104, 116, 52]

/-- The node stored under "right1" in the sample tree. -/
def right1Node : Node :=
  ((Node.new_item [1]).with_left_child left2).with_right_child right2

/-- The 8-node binary subtree rooted at "root" built exactly as in the
repository's `sample_tree` test fixture. -/
def sampleTree : Subtree :=
  (((((((((Subtree.new_root rootK).insert rootK
    (((Node.new_item [0]).with_left_child left1).with_right_child right1)).insert right1
    right1Node).insert left1
    ((Node.new_item [2]).with_right_child right3)).insert right2
    (Node.new_item [3])).insert left2
    (((Node.new_item [4]).with_left_child left4).with_right_child right4)).insert right3
    (Node.new_item [5])).insert right4
    (Node.new_item [6])).insert left4
    (Node.new_item [7]))

/-- A node whose left child is a key that is a cluster root of `c2state`. -/
def c2node : Node := (Node.new_item [9]).with_left_child [1]

/-- A subtree in which key `[1]` is simultaneously a cluster root and the
left child of the stored node `[0]`. -/
def c2state : Subtree :=
  ⟨none, {[1]}, Finmap.insert [0] c2node (Finmap.insert [1] (Node.new_item [8]) ∅), ∅⟩

/-- A node listing itself (key `[0]`) as its left child. -/
def selfNode : Node := (Node.new_item [9]).with_left_child [0]

/-- A subtree reached by inserting a self-referencing node: key `[0]` ends up
both stored and waitlisted. -/
def c3s : Subtree := (Subtree.new).insert [0] selfNode

/-- A second node whose left child `[0]` is in `c3s.waitlist ∩ c3s.nodes`. -/
def c3n : Node := (Node.new_item [8]).with_left_child [0]

/-- A two-entry tree: the root subtree announces the child `[1]` through a
placeholder node, and the child subtree entry at path `[[1]]` exists and is
empty. -/
def c5tree : Tree := (Tree.new).populate_subtrees_chain [[1]]

/-- The root subtree of `c5tree`. -/
def c9sub : Subtree :=
  ⟨none, {[1]}, Finmap.insert [1] Node.new_subtree_pacehodler ∅, ∅⟩

/-- A tree whose root subtree already stores a real (non-placeholder) node
under the key `[1]`. -/
def c7tree : Tree :=
  Tree.mk (Finmap.insert [] ⟨none, ∅, Finmap.insert [1] (Node.new_item [5]) ∅, ∅⟩ ∅)

set_option maxRecDepth 100000

theorem mem_childKeys {n : Node} {x : Key} :
    x ∈ n.childKeys ↔ n.left_child = some x ∨ n.right_child = some x := by
  cases hl : n.left_child <;> cases hr : n.right_child <;>
    simp [Node.childKeys, hl, hr, eq_comm]

theorem remove_root_node (s : Subtree) (k : Key) :
    (s.remove k).root_node = s.root_node := by
  cases h : s.nodes.lookup k <;> simp [Subtree.remove, h]

theorem remove_of_lookup_none {s : Subtree} {k : Key}
    (h : s.nodes.lookup k = none) : s.remove k = s := by
  simp [Subtree.remove, h]

theorem remove_nodes {s : Subtree} {k : Key} {m : Node}
    (h : s.nodes.lookup k = some m) : (s.remove k).nodes = s.nodes.erase k := by
  simp [Subtree.remove, h]

theorem not_mem_remove_nodes (s : Subtree) (k : Key) :
    k ∉ (s.remove k).nodes := by
  cases h : s.nodes.lookup k with
  | none => rw [remove_of_lookup_none h]; exact Finmap.lookup_eq_none.mp h
  | some m => rw [remove_nodes h]; exact Finmap.not_mem_erase_self

theorem mem_optClusterAdd (nodes : Finmap fun _ : Key => Node) (cr : Finset Key)
    (c : Option Key) (x : Key) :
    x ∈ optClusterAdd nodes cr c ↔ x ∈ cr ∨ (c = some x ∧ x ∈ nodes) := by
  cases c with
  | none => simp [optClusterAdd]
  | some v => by_cases hv : v ∈ nodes <;> simp [optClusterAdd, hv] <;> aesop

theorem mem_optErase (wl : Finset Key) (c : Option Key) (x : Key) :
    x ∈ optErase wl c ↔ x ∈ wl ∧ c ≠ some x := by
  cases c with
  | none => simp [optErase]
  | some v => simp [optErase, Finset.mem_erase]; aesop

theorem mem_childWaitlist (nodes : Finmap fun _ : Key => Node) (wl : Finset Key)
    (c : Option Key) (x : Key) :
    x ∈ childWaitlist nodes wl c ↔ x ∈ wl ∨ (c = some x ∧ x ∉ nodes) := by
  cases c with
  | none => simp [childWaitlist]
  | some v => by_cases hv : v ∈ nodes <;> simp [childWaitlist, hv] <;> aesop

theorem mem_ite_insert (wl : Finset Key) (k x : Key) (c : Prop) [Decidable c] :
    (x ∈ if c then insert k wl else wl) ↔ (c ∧ x = k) ∨ x ∈ wl := by
  split_ifs <;> simp <;> tauto

theorem mem_remove_cluster_roots {s : Subtree} {k : Key} {m : Node}
    (h : s.nodes.lookup k = some m) (x : Key) :
    x ∈ (s.remove k).cluster_roots ↔
      x ∈ s.cluster_roots ∨ (x ∈ m.childKeys ∧ x ≠ k ∧ x ∈ s.nodes) := by
  simp only [Subtree.remove, h, mem_childKeys, mem_optClusterAdd, Finmap.mem_erase]
  tauto

theorem mem_remove_waitlist {s : Subtree} {k : Key} {m : Node}
    (h : s.nodes.lookup k = some m) (x : Key) :
    x ∈ (s.remove k).waitlist ↔
      (x = k ∧ s.root_node ≠ some k ∧ k ∉ s.cluster_roots) ∨
        (x ∈ s.waitlist ∧ x ∉ m.childKeys) := by
  simp only [Subtree.remove, h, mem_childKeys, mem_ite_insert, mem_optErase,
    mem_optClusterAdd, Finmap.mem_erase]
  simp only [ne_eq, not_true_eq_false, false_and, and_false, false_or, or_false,
    not_false_eq_true, true_and, and_true]
  tauto

theorem insert_root_node (s : Subtree) (k : Key) (n : Node) :
    (s.insert k n).root_node = s.root_node := by
  simp only [Subtree.insert, remove_root_node]

theorem insert_nodes (s : Subtree) (k : Key) (n : Node) :
    (s.insert k n).nodes = ((s.remove k).nodes).insert k n := by
  simp only [Subtree.insert]

theorem mem_insert_waitlist (s : Subtree) (k : Key) (n : Node) (x : Key) :
    x ∈ (s.insert k n).waitlist ↔
      (x ∈ n.childKeys ∧ x ∉ (s.remove k).nodes) ∨
        (x ∈ (s.remove k).waitlist ∧ x ≠ k) := by
  simp only [Subtree.insert, mem_childKeys, mem_childWaitlist, Finset.mem_erase,
    remove_root_node]
  tauto

theorem mem_insert_cluster_roots (s : Subtree) (k : Key) (n : Node) (x : Key) :
    x ∈ (s.insert k n).cluster_roots ↔
      x ∉ n.childKeys ∧
        (x ∈ (s.remove k).cluster_roots ∨
          (x = k ∧ k ∉ (s.remove k).waitlist ∧ s.root_node ≠ some k)) := by
  simp only [Subtree.insert, mem_childKeys, mem_optErase, remove_root_node]
  by_cases hw : k ∈ (s.remove k).waitlist <;>
    by_cases hr : s.root_node = some k <;>
      simp [finsetAdd, hw, hr] <;> tauto

theorem Subtree.eq_of_fields {a b : Subtree} (h1 : a.root_node = b.root_node)
    (h2 : a.cluster_roots = b.cluster_roots) (h3 : a.nodes = b.nodes)
    (h4 : a.waitlist = b.waitlist) : a = b := by
  cases a; cases b; simp_all

theorem mem_remove_nodes_mono {s : Subtree} {k x : Key}
    (h : x ∈ (s.remove k).nodes) : x ∈ s.nodes := by
  cases hl : s.nodes.lookup k with
  | none => rw [remove_of_lookup_none hl] at h; exact h
  | some m => rw [remove_nodes hl] at h; exact (Finmap.mem_erase.mp h).2

theorem mem_remove_waitlist_mono {s : Subtree} {k x : Key}
    (h : x ∈ (s.remove k).waitlist) (hx : x ≠ k) : x ∈ s.waitlist := by
  cases hl : s.nodes.lookup k with
  | none => rw [remove_of_lookup_none hl] at h; exact h
  | some m =>
    rcases (mem_remove_waitlist hl x).mp h with ⟨h1, _⟩ | ⟨h1, _⟩
    · exact absurd h1 hx
    · exact h1

/-- Core restoration lemma: removing a stored node and re-inserting it
restores the subtree, under local well-formedness of the stored node's
surroundings. -/
theorem remove_insert_roundtrip {s : Subtree} {k : Key} {n : Node}
    (hlook : s.nodes.lookup k = some n)
    (hwl : k ∉ s.waitlist)
    (hself : k ∉ n.childKeys)
    (hch : ∀ c ∈ n.childKeys, c ∉ s.cluster_roots ∧ (c ∈ s.waitlist ↔ c ∉ s.nodes)) :
    (s.remove k).insert k n = s := by
  have h1 : (s.remove k).nodes.lookup k = none :=
    Finmap.lookup_eq_none.mpr (not_mem_remove_nodes s k)
  have hnoop : (s.remove k).remove k = s.remove k := remove_of_lookup_none h1
  apply Subtree.eq_of_fields
  · rw [insert_root_node, remove_root_node]
  · apply Finset.ext; intro x
    simp only [mem_insert_cluster_roots, hnoop, mem_remove_cluster_roots hlook,
      mem_remove_waitlist hlook, remove_root_node]
    by_cases hc : x ∈ n.childKeys
    · have hx1 := hch x hc
      by_cases hx : x = k
      · subst hx; exact absurd hc hself
      · simp only [hx]; tauto
    · by_cases hx : x = k
      · subst hx
        simp only [eq_self_iff_true, true_and, not_true_eq_false, false_and, and_false,
          false_or, or_false, ne_eq]
        tauto
      · tauto
  · rw [insert_nodes, hnoop, remove_nodes hlook]
    apply Finmap.ext_lookup; intro x
    by_cases hx : x = k
    · subst hx; rw [Finmap.lookup_insert, hlook]
    · rw [Finmap.lookup_insert_of_ne _ hx, Finmap.lookup_erase_ne hx]
  · apply Finset.ext; intro x
    simp only [mem_insert_waitlist, hnoop, mem_remove_waitlist hlook,
      remove_nodes hlook, Finmap.mem_erase, ne_eq]
    by_cases hc : x ∈ n.childKeys
    · have hx1 := hch x hc
      by_cases hx : x = k
      · subst hx; exact absurd hc hself
      · tauto
    · by_cases hx : x = k
      · subst hx
        simp only [eq_self_iff_true, true_and, not_true_eq_false, false_and, and_false,
          false_or, or_false, not_not]
        tauto
      · tauto

/-- C1: the claimed invariant `cluster_roots ⊆ nodes.keys()` does NOT survive
every insert/remove sequence: inserting a parentless node into a fresh
subtree makes it a cluster root, and removing it again deletes it from the
node map while leaving it in `cluster_roots`.  This evaluates the code at
that two-operation sequence. -/
theorem C1_remove_leaves_stale_cluster_root :
    ([0] : Key) ∈ (((Subtree.new).insert [0] (Node.new_item [9])).remove [0]).cluster_roots ∧
      ([0] : Key) ∉ (((Subtree.new).insert [0] (Node.new_item [9])).remove [0]).nodes := by
  decide

/-- C2: `remove(k)` followed by `insert(k, n)` with the stored node `n`
restores the subtree exactly, provided `k` is not waitlisted, `n` does not
list `k` itself as a child, and each child of `n` is not a cluster root and
is waitlisted exactly when it is absent from the node map; moreover, in the
8-node sample subtree, removing the mid-tree node "right1" leaves
`waitlist = {right1}` and `cluster_roots = {left2, right2}`, and
re-inserting "right1" with the same children restores the pre-removal
state. -/
theorem C2_remove_insert_restores :
    (∀ (s : Subtree) (k : Key) (n : Node),
        s.nodes.lookup k = some n →
        k ∉ s.waitlist →
        k ∉ n.childKeys →
        (∀ c ∈ n.childKeys, c ∉ s.cluster_roots ∧ (c ∈ s.waitlist ↔ c ∉ s.nodes)) →
        (s.remove k).insert k n = s) ∧
      (sampleTree.remove right1).waitlist = {right1} ∧
      (sampleTree.remove right1).cluster_roots = {left2, right2} ∧
      (sampleTree.remove right1).insert right1 right1Node = sampleTree := by
  refine ⟨fun s k n hlook hwl hself hch => remove_insert_roundtrip hlook hwl hself hch,
    by decide, by decide, by decide⟩

/-- C2 witness: the roundtrip statement applied to the sample tree at key
"right1", with every hypothesis discharged by evaluation. -/
theorem C2_remove_insert_restores_witness :
    sampleTree.nodes.lookup right1 = some right1Node ∧
      (sampleTree.remove right1).insert right1 right1Node = sampleTree :=
  ⟨by decide,
    C2_remove_insert_restores.1 sampleTree right1 right1Node (by decide) (by decide)
      (by decide) (by decide)⟩

/-- C2 counterexample: for an arbitrary subtree state the claim is false as
stated.  In `c2state` the stored node `[0]` lists the cluster root `[1]` as
its child; removing and re-inserting `[0]` silently drops `[1]` from
`cluster_roots`, so the prior state is not restored. -/
theorem C2_counterexample_cluster_root_child :
    c2state.nodes.lookup [0] = some c2node ∧
      (c2state.remove [0]).insert [0] c2node ≠ c2state := by
  decide

/-- C3: `insert(k, n)` twice in a row equals `insert(k, n)` once, provided no
child key of `n` lies simultaneously in the waitlist and the node map of
`s` (which is exactly the subtree invariant 1 restricted to `n`'s
children). -/
theorem C3_insert_idempotent (s : Subtree) (k : Key) (n : Node)
    (hch : ∀ c ∈ n.childKeys, ¬(c ∈ s.waitlist ∧ c ∈ s.nodes)) :
    (s.insert k n).insert k n = s.insert k n := by
  have htlook : (s.insert k n).nodes.lookup k = some n := by
    rw [insert_nodes]; exact Finmap.lookup_insert _
  apply Subtree.eq_of_fields
  · rw [insert_root_node]
  · apply Finset.ext; intro x
    have hTck : ∀ y, y ∈ (s.insert k n).cluster_roots → y ∉ n.childKeys :=
      fun y hy => ((mem_insert_cluster_roots s k n y).mp hy).1
    simp only [mem_insert_cluster_roots (s.insert k n) k n,
      mem_remove_cluster_roots htlook, mem_remove_waitlist htlook, insert_root_node]
    by_cases hc : x ∈ n.childKeys
    · have h2 := hTck x; tauto
    · by_cases hx : x = k
      · subst hx
        have h2 := hTck x
        simp only [eq_self_iff_true, true_and, ne_eq]
        tauto
      · have h2 := hTck x; tauto
  · rw [insert_nodes (s.insert k n) k n, remove_nodes htlook]
    apply Finmap.ext_lookup; intro x
    by_cases hx : x = k
    · subst hx; rw [Finmap.lookup_insert, htlook]
    · rw [Finmap.lookup_insert_of_ne _ hx, Finmap.lookup_erase_ne hx]
  · apply Finset.ext; intro x
    have hm1 : x ∈ (s.remove k).nodes → x ∈ s.nodes := mem_remove_nodes_mono
    have hm2 : x ∈ (s.remove k).waitlist → x ≠ k → x ∈ s.waitlist :=
      mem_remove_waitlist_mono
    have h3 : k ∉ (s.remove k).nodes := not_mem_remove_nodes s k
    simp only [mem_insert_waitlist, mem_remove_waitlist htlook, remove_nodes htlook,
      insert_nodes, Finmap.mem_erase, Finmap.mem_insert, insert_root_node, ne_eq]
    by_cases hc : x ∈ n.childKeys
    · have hcx := hch x hc
      by_cases hx : x = k
      · subst hx
        simp only [eq_self_iff_true, true_and, and_true, not_true_eq_false, false_and,
          and_false, false_or, or_false, not_false_eq_true, not_not]
        tauto
      · tauto
    · by_cases hx : x = k
      · subst hx
        simp only [eq_self_iff_true, true_and, and_true, not_true_eq_false, false_and,
          and_false, false_or, or_false, not_false_eq_true, not_not]
        tauto
      · tauto

/-- C3 witness: idempotence applied to the sample tree re-inserting the
"right1" node, hypotheses discharged by evaluation. -/
theorem C3_insert_idempotent_witness :
    (∀ c ∈ right1Node.childKeys,
        ¬(c ∈ sampleTree.waitlist ∧ c ∈ sampleTree.nodes)) ∧
      (sampleTree.insert right1 right1Node).insert right1 right1Node =
        sampleTree.insert right1 right1Node :=
  ⟨by decide, C3_insert_idempotent sampleTree right1 right1Node (by decide)⟩

/-- C3 counterexample: idempotence fails as stated.  Starting from `c3s`
(reached by the code's own inserts), inserting `c3n` at key `[1]` twice
yields a different waitlist than inserting it once, because `c3n`'s child
`[0]` lies in both the waitlist and the node map. -/
theorem C3_counterexample_waitlisted_child :
    (c3s.insert [1] c3n).insert [1] c3n ≠ c3s.insert [1] c3n := by
  decide

/-- C4: when the removed key was a cluster root, the code does NOT drop it
entirely: in this evaluation `[0]` is a non-root cluster root before
removal, and after `remove([0])` it is still a member of `cluster_roots`
(while the claim demands it appear in none of the three collections). -/
theorem C4_removed_cluster_root_not_dropped :
    ([0] : Key) ∈ ((Subtree.new).insert [0] (Node.new_item [9])).cluster_roots ∧
      ((Subtree.new).insert [0] (Node.new_item [9])).root_node ≠ some [0] ∧
      ([0] : Key) ∈ (((Subtree.new).insert [0] (Node.new_item [9])).remove [0]).cluster_roots := by
  decide

/-- C10: inserting a node that lists its own key as a child leaves that key
simultaneously in the node map and in the waitlist. -/
theorem C10_self_child_stored_and_awaited (s : Subtree) (k : Key) (n : Node)
    (h : n.left_child = some k ∨ n.right_child = some k) :
    k ∈ (s.insert k n).nodes ∧ k ∈ (s.insert k n).waitlist := by
  constructor
  · rw [← Finmap.mem_keys, insert_nodes, Finmap.mem_keys]
    exact Finmap.mem_insert.mpr (Or.inl rfl)
  · rw [mem_insert_waitlist]
    exact Or.inl ⟨mem_childKeys.mpr h, not_mem_remove_nodes s k⟩

/-- C10 witness: the self-child theorem evaluated on a fresh subtree and the
concrete self-referencing node `selfNode` at key `[0]`. -/
theorem C10_self_child_stored_and_awaited_witness :
    (selfNode.left_child = some [0] ∨ selfNode.right_child = some [0]) ∧
      ([0] : Key) ∈ ((Subtree.new).insert [0] selfNode).nodes ∧
      ([0] : Key) ∈ ((Subtree.new).insert [0] selfNode).waitlist :=
  ⟨by decide, C10_self_child_stored_and_awaited Subtree.new [0] selfNode (by decide)⟩

/-- C5: clearing the subtree at `p` keeps the map entry at `p` (now with an
empty node map) and leaves the parent subtree's node for `p`'s last
segment untouched. -/
theorem C5_clear_then_get (t : Tree) (p : Path) (st : Subtree)
    (h : t.subtrees.lookup p = some st) :
    (t.clear_subtree p).subtrees.lookup p = some { st with nodes := ∅ } ∧
      ∀ (q : Path) (k : Key), p = q ++ [k] →
        (t.clear_subtree p).get_node q k = t.get_node q k := by
  constructor
  · simp [Tree.clear_subtree, h]
  · intro q k hpq
    have hne : q ≠ p := by
      intro hq
      rw [hq] at hpq
      have hlen := congrArg List.length hpq
      simp at hlen
    simp [Tree.clear_subtree, h, Tree.get_node, Finmap.lookup_insert_of_ne _ hne]

/-- C5 witness: clearing the subtree at path `[[1]]` of the concrete tree
`c5tree` keeps the entry (empty) and preserves the root subtree's
placeholder node for segment `[1]`. -/
theorem C5_clear_then_get_witness :
    c5tree.subtrees.lookup [[1]] = some Subtree.new ∧
      (c5tree.clear_subtree [[1]]).subtrees.lookup [[1]] =
        some { Subtree.new with nodes := ∅ } ∧
      (c5tree.clear_subtree [[1]]).get_node [] [1] = c5tree.get_node [] [1] :=
  ⟨by decide,
    (C5_clear_then_get c5tree [[1]] Subtree.new (by decide)).1,
    (C5_clear_then_get c5tree [[1]] Subtree.new (by decide)).2 [] [1] rfl⟩

/-- C9: `clear_subtree(p)` empties exactly the node map of the subtree at
`p` — its root, cluster roots and waitlist keep their prior values — and no
other subtree entry changes. -/
theorem C9_clear_subtree_frame (t : Tree) (p : Path) (st : Subtree)
    (h : t.subtrees.lookup p = some st) :
    (t.clear_subtree p).subtrees.lookup p =
        some ⟨st.root_node, st.cluster_roots, ∅, st.waitlist⟩ ∧
      ∀ q : Path, q ≠ p → (t.clear_subtree p).subtrees.lookup q = t.subtrees.lookup q := by
  constructor
  · simp [Tree.clear_subtree, h]
  · intro q hq
    simp [Tree.clear_subtree, h, Finmap.lookup_insert_of_ne _ hq]

/-- C9 witness: clearing the root subtree of `c5tree` keeps its cluster
roots (now dangling over an empty node map) and waitlist, and leaves the
entry at `[[1]]` unchanged. -/
theorem C9_clear_subtree_frame_witness :
    c5tree.subtrees.lookup [] = some c9sub ∧
      (c5tree.clear_subtree []).subtrees.lookup [] =
        some ⟨c9sub.root_node, c9sub.cluster_roots, ∅, c9sub.waitlist⟩ ∧
      (c5tree.clear_subtree []).subtrees.lookup [[1]] = c5tree.subtrees.lookup [[1]] :=
  ⟨by decide,
    (C9_clear_subtree_frame c5tree [] c9sub (by decide)).1,
    (C9_clear_subtree_frame c5tree [] c9sub (by decide)).2 [[1]] (by decide)⟩

theorem populate_lookup_isSome (t : Tree) (path : Path) :
    ((t.populate_subtrees_chain path).subtrees.lookup path).isSome := by
  rw [Tree.populate_subtrees_chain, List.range_succ, List.foldl_append]
  simp only [List.foldl_cons, List.foldl_nil, Tree.populateStep]
  simp [List.take_length, Finmap.lookup_insert]

theorem lookup_insert_isSome {m : Finmap fun _ : Path => Subtree} {p q : Path}
    {v : Subtree} (h : (m.lookup p).isSome) : ((m.insert q v).lookup p).isSome := by
  by_cases hpq : p = q
  · subst hpq; simp [Finmap.lookup_insert]
  · rwa [Finmap.lookup_insert_of_ne _ hpq]

theorem childStep_lookup_isSome (t1 : Tree) (path : Path) (key : Key) (node : Node)
    (h : (t1.subtrees.lookup path).isSome) :
    ((t1.childStep path key node).subtrees.lookup path).isSome := by
  cases hel : node.element <;> simp only [Tree.childStep, hel] <;>
    first
      | exact h
      | exact lookup_insert_isSome h

theorem insert_lookup_self (s : Subtree) (k : Key) (n : Node) :
    (s.insert k n).nodes.lookup k = some n := by
  rw [insert_nodes]; exact Finmap.lookup_insert _

theorem insert_not_exists_lookup (s : Subtree) (k : Key) (n : Node) :
    (s.insert_not_exists k n).nodes.lookup k = some ((s.nodes.lookup k).getD n) := by
  rw [Subtree.insert_not_exists]
  by_cases hm : k ∈ s.nodes
  · obtain ⟨b, hb⟩ := Finmap.mem_iff.mp hm
    simp [hm, hb]
  · have h0 : s.nodes.lookup k = none := Finmap.lookup_eq_none.mpr hm
    simp [hm, h0, insert_lookup_self]

theorem take_eq_take_of_le {path : Path} {j d : Nat} (hj : j ≤ path.length)
    (hd : d ≤ path.length) (h : path.take j = path.take d) : j = d := by
  have hlen := congrArg List.length h
  simpa [List.length_take, Nat.min_eq_left hj, Nat.min_eq_left hd] using hlen

theorem populateStep_get_node_other {path : Path} {d j : Nat} (hd : d ≤ path.length)
    (hj : j ≤ path.length) (hne : j ≠ d) (t : Tree) (key : Key) :
    (Tree.populateStep path t j).get_node (path.take d) key =
      t.get_node (path.take d) key := by
  have hne2 : path.take d ≠ path.take j :=
    fun h => hne (take_eq_take_of_le hj hd h.symm)
  simp only [Tree.populateStep, Tree.get_node]
  rw [Finmap.lookup_insert_of_ne _ hne2]

theorem populateStep_get_node_self {path : Path} {d : Nat} (hd : d < path.length)
    (t : Tree) :
    (Tree.populateStep path t d).get_node (path.take d) path[d] =
      some ((t.get_node (path.take d) path[d]).getD Node.new_subtree_pacehodler) := by
  simp only [Tree.populateStep, dif_pos hd, Tree.get_node]
  rw [Finmap.lookup_insert]
  cases hsl : t.subtrees.lookup (path.take d) with
  | none => simp [hsl, insert_not_exists_lookup, Subtree.new]
  | some stOld => simp [hsl, insert_not_exists_lookup]

theorem populateStep_get_node_some {path : Path} {d j : Nat} (hd : d < path.length)
    (hj : j ≤ path.length) (t : Tree) {v : Node}
    (h : t.get_node (path.take d) path[d] = some v) :
    (Tree.populateStep path t j).get_node (path.take d) path[d] = some v := by
  by_cases hjd : j = d
  · subst hjd
    rw [populateStep_get_node_self hd, h]
    rfl
  · rw [populateStep_get_node_other (le_of_lt hd) hj hjd]
    exact h

theorem foldl_populate_preserve {path : Path} {d : Nat} (hd : d < path.length)
    (l : List Nat) (hl : ∀ j ∈ l, j ≤ path.length) (t : Tree) {v : Node}
    (h : t.get_node (path.take d) path[d] = some v) :
    (l.foldl (Tree.populateStep path) t).get_node (path.take d) path[d] = some v := by
  induction l generalizing t with
  | nil => exact h
  | cons j rest ih =>
    rw [List.foldl_cons]
    exact ih (fun x hx => hl x (List.mem_cons_of_mem _ hx))
      (Tree.populateStep path t j)
      (populateStep_get_node_some hd (hl j (List.mem_cons_self _ _)) t h)

theorem foldl_populate_get_node {path : Path} {d : Nat} (hd : d < path.length)
    (l : List Nat) (hl : ∀ j ∈ l, j ≤ path.length) (hdl : d ∈ l) (t : Tree) :
    (l.foldl (Tree.populateStep path) t).get_node (path.take d) path[d] =
      some ((t.get_node (path.take d) path[d]).getD Node.new_subtree_pacehodler) := by
  induction l generalizing t with
  | nil => cases hdl
  | cons j rest ih =>
    rw [List.foldl_cons]
    by_cases hjd : j = d
    · subst hjd
      exact foldl_populate_preserve hd rest
        (fun x hx => hl x (List.mem_cons_of_mem _ hx)) _
        (populateStep_get_node_self hd t)
    · have hdrest : d ∈ rest := by
        rcases List.mem_cons.mp hdl with h1 | h1
        · exact absurd h1.symm hjd
        · exact h1
      have hrw := populateStep_get_node_other (le_of_lt hd)
        (hl j (List.mem_cons_self _ _)) hjd t path[d]
      exact (ih (fun x hx => hl x (List.mem_cons_of_mem _ hx)) hdrest
        (Tree.populateStep path t j)).trans (by rw [hrw])

/-- C7: for every prefix depth `d` of the insertion path, the
chain-population step leaves an already-present node under the next
segment's key unchanged, and synthesizes a `SubtreePlaceholder` node there
only when no node existed. -/
theorem C7_populate_never_overwrites (t : Tree) (path : Path) (d : Nat)
    (hd : d < path.length) :
    (∀ m : Node, t.get_node (path.take d) path[d] = some m →
        (t.populate_subtrees_chain path).get_node (path.take d) path[d] = some m) ∧
      (t.get_node (path.take d) path[d] = none →
        (t.populate_subtrees_chain path).get_node (path.take d) path[d] =
          some Node.new_subtree_pacehodler) := by
  have hmain := foldl_populate_get_node hd (List.range (path.length + 1))
    (fun j hj => Nat.lt_succ_iff.mp (List.mem_range.mp hj))
    (List.mem_range.mpr (Nat.lt_succ_of_lt hd)) t
  constructor
  · intro m hm
    rw [Tree.populate_subtrees_chain, hmain, hm]
    rfl
  · intro hm
    rw [Tree.populate_subtrees_chain, hmain, hm]
    rfl

/-- C7 witness: populating along `[[1],[2]]` over a tree that already holds
the real item node `[1]` in its root subtree leaves that node unchanged. -/
theorem C7_populate_never_overwrites_witness :
    (0 < ([[1], [2]] : Path).length) ∧
      c7tree.get_node [] [1] = some (Node.new_item [5]) ∧
      (c7tree.populate_subtrees_chain [[1], [2]]).get_node [] [1] =
        some (Node.new_item [5]) :=
  ⟨by decide, by decide,
    (C7_populate_never_overwrites c7tree [[1], [2]] 0 (by decide)).1
      (Node.new_item [5]) (by decide)⟩

theorem finmapKeysInsert {α : Type} [DecidableEq α] {β : α → Type} (a : α) (b : β a)
    (s : Finmap β) : (Finmap.insert a b s).keys = insert a s.keys :=
  Finset.ext fun x => by
    simp [Finmap.mem_keys, Finmap.mem_insert, Finset.mem_insert]

theorem new_insert_placeholder (key : Key) :
    (Subtree.new).insert_not_exists key Node.new_subtree_pacehodler =
      ⟨none, {key}, Finmap.insert key Node.new_subtree_pacehodler ∅, ∅⟩ := by
  simp [Subtree.insert_not_exists, Subtree.insert, Subtree.remove, Subtree.new,
    childWaitlist, optErase, finsetAdd, Node.new_subtree_pacehodler,
    Finmap.not_mem_empty, Finmap.lookup_empty]

theorem populate_four (a b c d : Key) :
    (Tree.new).populate_subtrees_chain [a, b, c, d] =
      Tree.mk (Finmap.insert [a, b, c, d] Subtree.new
        (Finmap.insert [a, b, c]
          ⟨none, {d}, Finmap.insert d Node.new_subtree_pacehodler ∅, ∅⟩
        (Finmap.insert [a, b]
          ⟨none, {c}, Finmap.insert c Node.new_subtree_pacehodler ∅, ∅⟩
        (Finmap.insert [a]
          ⟨none, {b}, Finmap.insert b Node.new_subtree_pacehodler ∅, ∅⟩
        (Finmap.insert []
          ⟨none, {a}, Finmap.insert a Node.new_subtree_pacehodler ∅, ∅⟩ ∅))))) := by
  show (List.range 5).foldl (Tree.populateStep [a, b, c, d]) Tree.new = _
  rw [show List.range 5 = [0, 1, 2, 3, 4] from rfl]
  simp only [List.foldl_cons, List.foldl_nil]
  simp [Tree.populateStep, Tree.new, new_insert_placeholder, Finmap.lookup_insert,
    Finmap.lookup_insert_of_ne, Finmap.lookup_empty]

/-- C6: populating the subtree chain of a 4-segment path over an empty tree
creates exactly 5 subtree entries — one per prefix — where each proper
prefix's subtree holds exactly one node, a `SubtreePlaceholder` under the
next segment's key, and the subtree at the full path holds no nodes. -/
theorem C6_populate_chain_four_segments (a b c d : Key) :
    ((Tree.new).populate_subtrees_chain [a, b, c, d]).subtrees.keys.card = 5 ∧
      (((Tree.new).populate_subtrees_chain [a, b, c, d]).subtrees.lookup []).map
          Subtree.nodes = some (Finmap.insert a Node.new_subtree_pacehodler ∅) ∧
      (((Tree.new).populate_subtrees_chain [a, b, c, d]).subtrees.lookup [a]).map
          Subtree.nodes = some (Finmap.insert b Node.new_subtree_pacehodler ∅) ∧
      (((Tree.new).populate_subtrees_chain [a, b, c, d]).subtrees.lookup [a, b]).map
          Subtree.nodes = some (Finmap.insert c Node.new_subtree_pacehodler ∅) ∧
      (((Tree.new).populate_subtrees_chain [a, b, c, d]).subtrees.lookup [a, b, c]).map
          Subtree.nodes = some (Finmap.insert d Node.new_subtree_pacehodler ∅) ∧
      (((Tree.new).populate_subtrees_chain [a, b, c, d]).subtrees.lookup [a, b, c, d]).map
          Subtree.nodes = some ∅ := by
  rw [populate_four]
  refine ⟨?_, ?_, ?_, ?_, ?_, ?_⟩
  · simp only [finmapKeysInsert, Finmap.keys_empty]
    rw [Finset.card_insert_of_not_mem (by simp), Finset.card_insert_of_not_mem (by simp),
      Finset.card_insert_of_not_mem (by simp), Finset.card_insert_of_not_mem (by simp)]
    rfl
  · simp [Finmap.lookup_insert, Finmap.lookup_insert_of_ne]
  · simp [Finmap.lookup_insert, Finmap.lookup_insert_of_ne]
  · simp [Finmap.lookup_insert, Finmap.lookup_insert_of_ne]
  · simp [Finmap.lookup_insert, Finmap.lookup_insert_of_ne]
  · simp [Finmap.lookup_insert, Subtree.new]

/-- C8: `Tree::insert` is total — after the chain-population step the
subtree at the insertion path always exists, so the `expect` panic branch
(modelled by the `none` result) is unreachable, for every input. -/
theorem C8_tree_insert_total (t : Tree) (path : Path) (key : Key) (node : Node) :
    (t.insert path key node).isSome := by
  rw [Tree.insert]
  have h2 := childStep_lookup_isSome (t.populate_subtrees_chain path) path key node
    (populate_lookup_isSome t path)
  obtain ⟨st, hst⟩ := Option.isSome_iff_exists.mp h2
  simp [hst]

end Grovedbg
